import Mathlib

/-!
# FRC Scanner — verification of the ingestion/dedup/delivery core

A shallow embedding of the core pipeline of `src/index.tsx`:
payload normalization (trim, line-break stripping, LZ-decompression
heuristic), field parsing (`fixSplitData`, `parseFrcData`), dedup keying
(`generateRecordKey`, `isDuplicateRecord`, `handleScan`), and the
upload / retry / status state machine (`uploadData`, `updateRecordStatus`,
`retryPending`).

Strings are modelled as `List Char` so every operation is a structurally
recursive, executable function.  JavaScript string primitives are modelled
character-for-character:

* `trim` removes the whitespace characters space, tab, CR and LF from both
  ends (a representative subset of the ECMAScript WhiteSpace class);
* `split(sep)` on a single character keeps empty segments (`splitTab`);
* `split(/\s+/)` splits between maximal whitespace runs, producing a
  leading empty segment when the text starts with whitespace and a trailing
  empty segment when it ends with whitespace (`splitWs`);
* a regex test `^\d+$` is "non-empty and all ASCII digits";
* truthiness of a string is non-emptiness, and of an optional field it is
  "present and non-empty".

External effects are passed in as data: the LZString decompression result
is an `Option Str` argument (`none` for a thrown exception, an absent
library, or a `null` result), the clock reading is a `Nat` argument, and
the outcome of a `fetch` call is a `FetchOutcome` argument.
-/

set_option maxRecDepth 10000

abbrev Str := List Char

/-- The whitespace class used by both `trim` and the whitespace split. -/
def isWs (c : Char) : Bool :=
  c == ' ' || c == '\t' || c == '\n' || c == '\r'

/-- JavaScript `text.includes(' ')`. -/
def hasSpace (s : Str) : Bool := s.any (fun c => c == ' ')

/-- JavaScript `text.includes('\t')`. -/
def hasTab (s : Str) : Bool := s.any (fun c => c == '\t')

/-- JavaScript `String.prototype.trim`: drop whitespace from both ends. -/
def trim (s : Str) : Str :=
  ((s.dropWhile isWs).reverse.dropWhile isWs).reverse

/-- `replace(/(\r\n|\n|\r)/gm, "")`: remove every CR and LF character. -/
def stripBreaks (s : Str) : Str :=
  s.filter (fun c => !(c == '\n' || c == '\r'))

/-- JavaScript `split(c)` for a one-character separator: split at every
occurrence, keeping empty segments.  Always returns at least one segment. -/
def splitSingle (p : Char → Bool) : Str → List Str
  | [] => [[]]
  | c :: rest =>
    if p c then [] :: splitSingle p rest
    else
      match splitSingle p rest with
      | [] => [[c]]
      | x :: xs => (c :: x) :: xs

/-- `trimmed.split('\t')`. -/
def splitTab (s : Str) : List Str := splitSingle (fun c => c == '\t') s

/-- Drops the empty segments produced by the interior of a whitespace run,
keeping the final segment even when it is empty (a trailing run of
whitespace yields a trailing empty segment, exactly as `split(/\s+/)`
does in JavaScript). -/
def midFilter : List Str → List Str
  | [] => []
  | [x] => [x]
  | x :: y :: rest =>
    if x.isEmpty then midFilter (y :: rest) else x :: midFilter (y :: rest)

/-- JavaScript `split(/\s+/)`: segments between maximal whitespace runs.
The first segment is kept even when empty (leading whitespace), interior
empty segments are collapsed, and a trailing whitespace run contributes a
final empty segment. -/
def splitWs (s : Str) : List Str :=
  match splitSingle isWs s with
  | [] => [[]]
  | x :: xs => x :: midFilter xs

/-- JavaScript `Array.prototype.join(' ')`. -/
def joinSpace : List Str → Str
  | [] => []
  | [x] => x
  | x :: y :: rest => x ++ ' ' :: joinSpace (y :: rest)

/-- The continuation-prone token of the 2026 format. -/
def levelTok : Str := "Level".toList

/-- The regex test `/^\d+$/`. -/
def isNumericTok (s : Str) : Bool := !s.isEmpty && s.all Char.isDigit

/-- `fixSplitData` from `src/index.tsx` (lines 45-62): merge a token that
is exactly `"Level"` with an immediately following purely numeric token,
consuming the numeric token. -/
def fixSplitData : List Str → List Str
  | [] => []
  | [curr] => [curr]
  | curr :: next :: rest =>
    if curr == levelTok && (!next.isEmpty && next.all Char.isDigit) then
      (curr ++ ' ' :: next) :: fixSplitData rest
    else
      curr :: fixSplitData (next :: rest)

/-- `FRC_COLUMNS` from `src/index.tsx` (lines 35-42). -/
def FRC_COLUMNS : List Str :=
  (["scouterName", "eventCode", "matchLevel", "matchNumber", "robotPosition",
    "teamNumber", "autoLeave", "autoFuel", "autoTower", "teleFuel",
    "teleTower", "defenseRating", "driverRating", "speedRating",
    "defendedBy", "robotDied", "tippedOver", "comments"]).map String.toList

def kScouterName : Str := "scouterName".toList
def kEventCode : Str := "eventCode".toList
def kMatchLevel : Str := "matchLevel".toList
def kMatchNumber : Str := "matchNumber".toList
def kTeamNumber : Str := "teamNumber".toList
def kComments : Str := "comments".toList

/-- The `FRC_COLUMNS.forEach` body of `parseFrcData` (lines 80-94): assign
`parts[index]` to each column whose index is in range; the last column
takes `parts[index] || ""` on the tab path and the space-join of all the
remaining tokens on the whitespace path.  `idx` is the index of the first
column of `cols` within the full column list; the last column is reached
exactly when the tail of `cols` is empty. -/
def mapCols : List Str → List Str → Bool → Nat → List (Str × Str)
  | [], _, _, _ => []
  | [col], parts, isTab, idx =>
    if idx < parts.length then
      [(col, if isTab then parts.getD idx [] else joinSpace (parts.drop idx))]
    else []
  | col :: col2 :: rest, parts, isTab, idx =>
    if idx < parts.length then
      (col, parts.getD idx []) :: mapCols (col2 :: rest) parts isTab (idx + 1)
    else mapCols (col2 :: rest) parts isTab (idx + 1)

/-- The token list `parts` that `parseFrcData` maps onto the columns:
tab-split when the trimmed text contains a tab, otherwise
whitespace-split and repaired with `fixSplitData`. -/
def frcParts (raw : Str) : List Str :=
  let trimmed := trim raw
  if hasTab trimmed then splitTab trimmed
  else fixSplitData (splitWs trimmed)

/-- `parseFrcData` from `src/index.tsx` (lines 65-96). -/
def parseFrcData (raw : Str) : List (Str × Str) :=
  mapCols FRC_COLUMNS (frcParts raw) (hasTab (trim raw)) 0

/-- Reading field `k` of a parsed mapping the way the TypeScript does:
`undefined` and an empty value are both falsy, and
`val === undefined ? "" : val` is `getD []`. -/
def lookupD (p : List (Str × Str)) (k : Str) : Str :=
  (List.lookup k p).getD []

/-- The value list obtained by reading every column of a
`mapCols cols parts b idx` mapping back out with `lookupD`: the token at
each index while tokens last, the empty string afterwards, and the last
column's whitespace-path join.  Only the column count matters, so it is
indexed by a count. -/
def simCols : Nat → List Str → Bool → Nat → List Str
  | 0, _, _, _ => []
  | 1, parts, b, idx =>
    [if idx < parts.length then
       (if b then parts.getD idx [] else joinSpace (parts.drop idx))
     else []]
  | (m + 2), parts, b, idx =>
    (if idx < parts.length then parts.getD idx [] else [])
      :: simCols (m + 1) parts b (idx + 1)

/-! ## Data model and operations -/

/-- The delivery states of a `ScanRecord`. -/
inductive Status
  | pending
  | sending
  | sent
  | error
deriving DecidableEq

/-- The `ScanRecord` interface of `src/index.tsx` (lines 15-23). -/
structure ScanRecord where
  id : Nat
  timestamp : Str
  raw : Str
  parsed : Option (List (Str × Str))
  displayData : Str
  status : Status
  errorMsg : Option Str
deriving DecidableEq

/-- `generateRecordKey` (lines 409-416): when the parsed mapping has
truthy `matchNumber`, `teamNumber` and `scouterName`, the key is the
dash-separated concatenation of `eventCode`, `matchLevel`, `matchNumber`,
`teamNumber` and `scouterName` (with `|| ''` turning an absent
`eventCode`/`matchLevel` into the empty string); otherwise the first
100 characters of the raw text. -/
def generateRecordKey (parsed : Option (List (Str × Str))) (raw : Str) : Str :=
  match parsed with
  | some p =>
    if !(lookupD p kMatchNumber).isEmpty && !(lookupD p kTeamNumber).isEmpty
        && !(lookupD p kScouterName).isEmpty then
      lookupD p kEventCode ++ '-' :: lookupD p kMatchLevel
        ++ '-' :: lookupD p kMatchNumber ++ '-' :: lookupD p kTeamNumber
        ++ '-' :: lookupD p kScouterName
    else raw.take 100
  | none => raw.take 100

/-- `isDuplicateRecord` (lines 418-424): the first history record whose
key equals the candidate's key. -/
def isDuplicateRecord (hist : List ScanRecord)
    (parsed : Option (List (Str × Str))) (raw : Str) : Option ScanRecord :=
  let newKey := generateRecordKey parsed raw
  hist.find? (fun r => generateRecordKey r.parsed r.raw == newKey)

/-- The decompression decision of `handleScan` (lines 431-452).
`normalized` is the trimmed, line-break-free scan text and `dRes` the
result of `LZString.decompressFromBase64` (`none` when the library is
absent, the call throws, or it returns `null`).  The decompressed form is
used when it is truthy and either `useLZ` is set or the original has no
space while the decompressed text has one. -/
def chooseProcessed (useLZ : Bool) (normalized : Str) (dRes : Option Str) : Str :=
  match dRes with
  | none => normalized
  | some d =>
    if d.isEmpty then normalized
    else if useLZ || (!hasSpace normalized && hasSpace d) then d
    else normalized

/-- JavaScript template-literal interpolation of a possibly-undefined
field: an absent field prints as the string `undefined`. -/
def jsTmpl (o : Option Str) : Str := o.getD "undefined".toList

/-- The `preview` computation of `handleScan` (lines 473-484). -/
def mkPreview (parsed : List (Str × Str)) (processedData : Str) : Str :=
  if !(lookupD parsed kScouterName).isEmpty && !(lookupD parsed kMatchNumber).isEmpty
      && !(lookupD parsed kTeamNumber).isEmpty then
    let base := lookupD parsed kScouterName ++ " | ".toList
      ++ jsTmpl (List.lookup kMatchLevel parsed) ++ lookupD parsed kMatchNumber
      ++ " | T:".toList ++ lookupD parsed kTeamNumber
    let comments := lookupD parsed kComments
    if !comments.isEmpty then
      base ++ " | 💬 ".toList
        ++ (if comments.length > 8 then comments.take 8 ++ "..".toList else comments)
    else base
  else if processedData.length > 50 then processedData.take 50 ++ "...".toList
  else processedData

/-- `handleScan` (lines 426-498) as a state transition on the history.
`now` is the `Date.now()` reading, `ts` the `toLocaleTimeString()` string
and `dRes` the decompression result.  Returns the new history and the
record passed to `uploadData` (`none` when the duplicate gate fired, in
which case nothing is appended and no upload is dispatched). -/
def handleScan (hist : List ScanRecord) (useLZ : Bool) (now : Nat) (ts : Str)
    (data : Str) (dRes : Option Str) : List ScanRecord × Option ScanRecord :=
  let normalizedData := stripBreaks (trim data)
  let processedData := chooseProcessed useLZ normalizedData dRes
  let parsed := parseFrcData processedData
  match isDuplicateRecord hist (some parsed) processedData with
  | some _ => (hist, none)
  | none =>
    let preview := mkPreview parsed processedData
    let newRecord : ScanRecord :=
      { id := now, timestamp := ts, raw := processedData, parsed := some parsed,
        displayData := preview, status := Status.pending, errorMsg := none }
    (newRecord :: hist, some newRecord)

/-- `updateRecordStatus` (lines 556-558): replace status and error
message on every record with the given id.  An omitted `errorMsg`
argument in the TypeScript is the explicit `undefined`, i.e. `none`. -/
def updateRecordStatus (hist : List ScanRecord) (id : Nat) (status : Status)
    (errorMsg : Option Str) : List ScanRecord :=
  hist.map (fun r =>
    if r.id == id then { r with status := status, errorMsg := errorMsg } else r)

/-- Outcome of the `fetch` call: it either completes, or throws with a
message (`[]` standing for a falsy `e.message`, which the code replaces
with `"Network Error"`). -/
inductive FetchOutcome
  | ok
  | fail (msg : Str)
deriving DecidableEq

/-- The ordered column values `uploadData` builds (lines 516-525): read
each Schema field from the parsed mapping, substituting the empty string
for a missing field. -/
def simulatedCols (p : List (Str × Str)) : List Str :=
  FRC_COLUMNS.map (fun k => lookupD p k)

/-- The reconstructed transport raw string (line 528). -/
def simulatedRaw (p : List (Str × Str)) : Str := joinSpace (simulatedCols p)

/-- The form fields of the outbound request (lines 532-540).  `jsonCols`
is transmitted as base64 of the JSON rendering of `cols`; both encodings
are injective and external, so the payload is modelled by the data they
carry. -/
structure TransportPayload where
  timestamp : Str
  raw : Str
  cols : List Str
deriving DecidableEq

/-- One run of `uploadData` (lines 510-554): the history at the moment
the request is issued, the payload of that request (both `none` when the
endpoint URL is empty and the function returns immediately), and the
final history. -/
structure UploadTrace where
  sendingState : Option (List ScanRecord)
  payload : Option TransportPayload
  final : List ScanRecord
deriving DecidableEq

/-- `uploadData` (lines 510-554).  With an empty endpoint URL it returns
at once, touching nothing.  Otherwise it marks the record `sending`,
builds the payload from the parsed mapping (or by re-tokenizing `raw`
with the whitespace-split-plus-repair logic when `parsed` is absent),
issues the request, and records `sent` on completion or `error` with
`e.message || "Network Error"` on a throw. -/
def uploadData (hist : List ScanRecord) (scriptUrl : Str) (record : ScanRecord)
    (ts : Str) (outcome : FetchOutcome) : UploadTrace :=
  if scriptUrl.isEmpty then
    { sendingState := none, payload := none, final := hist }
  else
    let h1 := updateRecordStatus hist record.id Status.sending none
    let cols :=
      match record.parsed with
      | some p => simulatedCols p
      | none => fixSplitData (splitWs (trim record.raw))
    let payload : TransportPayload :=
      { timestamp := ts, raw := joinSpace cols, cols := cols }
    let h2 :=
      match outcome with
      | FetchOutcome.ok => updateRecordStatus h1 record.id Status.sent none
      | FetchOutcome.fail m =>
        updateRecordStatus h1 record.id Status.error
          (some (if m.isEmpty then "Network Error".toList else m))
    { sendingState := some h1, payload := some payload, final := h2 }

/-- The selection of `retryPending` (line 561): every record whose
status is `pending` or `error`. -/
def retrySelection (hist : List ScanRecord) : List ScanRecord :=
  hist.filter (fun r => r.status == Status.pending || r.status == Status.error)

/-- `retryPending` (lines 560-567): the list of records for which an
upload is re-issued.  Nothing happens when the selection is empty or the
user declines the confirmation prompt. -/
def retryPending (hist : List ScanRecord) (confirmed : Bool) : List ScanRecord :=
  let pending := retrySelection hist
  if pending.isEmpty then []
  else if confirmed then pending
  else []

/-! ## Spec-side comparison definitions and concrete sample values -/

/-- JavaScript-regex whitespace membership of any character, used to state
the spec's literal "contains no whitespace" wording. -/
def hasWsChar (s : Str) : Bool := s.any isWs

/-- The normalization choice as the spec of claim C2 literally words it:
use the decompressed form exactly when it is non-empty and either the
forced-compressed flag is on or the original contains no WHITESPACE while
the decompressed text does.  Stated for comparison with `chooseProcessed`,
which tests only for the space character. -/
def chooseProcessedSpecWs (useLZ : Bool) (normalized : Str) (dRes : Option Str) : Str :=
  match dRes with
  | none => normalized
  | some d =>
    if !d.isEmpty && (useLZ || (!hasWsChar normalized && hasWsChar d)) then d
    else normalized

/-- The normalization choice with the spec's wording amended from
"whitespace" to "a space character". -/
def chooseProcessedSpecSpace (useLZ : Bool) (normalized : Str) (dRes : Option Str) : Str :=
  match dRes with
  | none => normalized
  | some d =>
    if !d.isEmpty && (useLZ || (!hasSpace normalized && hasSpace d)) then d
    else normalized

/-- A well-formed sample payload: six whitespace-separated fields. -/
def sampleData : Str := "Alice CMP Qual 1 R1 254".toList

/-- A sample stored record with a parsed mapping and `pending` status. -/
def sampleRec : ScanRecord :=
  { id := 1, timestamp := [], raw := sampleData,
    parsed := some (parseFrcData sampleData), displayData := [],
    status := Status.pending, errorMsg := none }

/-- `sampleRec` after a successful delivery. -/
def sampleSentRec : ScanRecord :=
  { sampleRec with id := 2, status := Status.sent }

-- Sanity checks against the JavaScript semantics (concrete evaluation).
example : splitWs "a  b".toList = ["a".toList, "b".toList] := by decide
example : splitWs "".toList = [[]] := by decide
example : splitWs " a ".toList = [[], "a".toList, []] := by decide
example : splitTab "a\t\tb".toList = ["a".toList, [], "b".toList] := by decide
example : fixSplitData ["Level".toList, "2".toList, "x".toList]
    = ["Level 2".toList, "x".toList] := by decide
example :
    lookupD (parseFrcData "Alice CMP Qual 1 R1 254".toList) kTeamNumber
      = "254".toList := by decide
example :
    lookupD (parseFrcData "A\tB\tLevel\t2".toList) kMatchNumber
      = "2".toList := by decide


example :
    generateRecordKey (some (parseFrcData "Alice CMP Qual 1 R1 254".toList))
        "x".toList
      = "CMP-Qual-1-254-Alice".toList := by decide
example :
    (handleScan [] false 7 [] "Alice CMP Qual 1 R1 254".toList none).1.length
      = 1 := by decide

/-! ## Claims C10, C2, C3, C7 -/

/-- Claim C10: with an empty endpoint URL, `uploadData` returns
immediately — no request state, no payload, and a final history equal to
the input history, so every record (in particular a freshly created
`pending` one) keeps its status and error message. -/
theorem C10_empty_url_noop (hist : List ScanRecord) (record : ScanRecord)
    (ts : Str) (outcome : FetchOutcome) :
    uploadData hist [] record ts outcome
      = { sendingState := none, payload := none, final := hist } := by
  rfl

/-- Claim C2 (amended): normalization picks the decompressed form exactly
when it is non-empty and either the flag is on or the original has no
SPACE character while the decompressed form has one; `none` (a throw, a
null result, or an absent library) always keeps the trimmed original, and
the concrete scenario — space-free original, decompressed form with a
space, flag off — uses the decompressed form. -/
theorem C2_space_heuristic (useLZ : Bool) (normalized : Str) (dRes : Option Str) :
    (chooseProcessed useLZ normalized dRes
        = chooseProcessedSpecSpace useLZ normalized dRes) ∧
    (dRes = none → chooseProcessed useLZ normalized dRes = normalized) ∧
    (∀ d : Str, hasSpace normalized = false → hasSpace d = true → d ≠ [] →
        chooseProcessed false normalized (some d) = d) := by
  refine ⟨?_, ?_, ?_⟩
  · cases dRes with
    | none => rfl
    | some d =>
      by_cases hd : d.isEmpty <;>
        simp [chooseProcessed, chooseProcessedSpecSpace, hd]
  · intro h; subst h; rfl
  · intro d hn hd hne
    have hde : d.isEmpty = false := by
      cases d with
      | nil => exact absurd rfl hne
      | cons c cs => rfl
    simp [chooseProcessed, hde, hn, hd]

/-- Claim C2, as stated, is false: the code tests `includes(' ')`, not
general whitespace.  For the payload `"a\tb"` (whitespace inside, but no
space) with decompression yielding `"x y"` and the flag off, the claim
says the trimmed original must be kept, yet the code uses the
decompressed form. -/
theorem C2_counterexample :
    chooseProcessed false "a\tb".toList (some "x y".toList) = "x y".toList ∧
    hasWsChar "a\tb".toList = true ∧
    chooseProcessedSpecWs false "a\tb".toList (some "x y".toList)
      = "a\tb".toList := by
  exact ⟨by decide, by decide, by decide⟩

/-- Claim C2 witness: a space-free compressed payload whose decompressed
form contains spaces is used in decompressed form with the flag off. -/
theorem C2_space_heuristic_witness :
    chooseProcessed false "QUJD".toList (some "a b".toList) = "a b".toList := by
  exact (C2_space_heuristic false "QUJD".toList (some "a b".toList)).2.2
    "a b".toList (by decide) (by decide) (by decide)

/-- Claim C3: on the whitespace path a token equal to `"Level"` followed
by a purely numeric token is merged into one token and the numeric token
is consumed; any other pair passes through; tab-containing input is split
on tabs and never repaired, whatever its token sequence. -/
theorem C3_token_repair :
    (∀ (next : Str) (rest : List Str), next ≠ [] → next.all Char.isDigit = true →
        fixSplitData (levelTok :: next :: rest)
          = (levelTok ++ ' ' :: next) :: fixSplitData rest) ∧
    (∀ (curr next : Str) (rest : List Str),
        (curr == levelTok && (!next.isEmpty && next.all Char.isDigit)) = false →
        fixSplitData (curr :: next :: rest)
          = curr :: fixSplitData (next :: rest)) ∧
    (∀ raw : Str, hasTab (trim raw) = false →
        parseFrcData raw
          = mapCols FRC_COLUMNS (fixSplitData (splitWs (trim raw))) false 0) ∧
    (∀ raw : Str, hasTab (trim raw) = true →
        parseFrcData raw
          = mapCols FRC_COLUMNS (splitTab (trim raw)) true 0) := by
  refine ⟨?_, ?_, ?_, ?_⟩
  · intro next rest hne hdig
    have hemp : next.isEmpty = false := by
      cases next with
      | nil => exact absurd rfl hne
      | cons c cs => rfl
    simp [fixSplitData, hemp, hdig]
  · intro curr next rest hcond
    simp only [fixSplitData, hcond, Bool.false_eq_true, if_false]
  · intro raw h
    simp [parseFrcData, frcParts, h]
  · intro raw h
    simp [parseFrcData, frcParts, h]

/-- Claim C3 witness: the merge at a concrete token sequence. -/
theorem C3_token_repair_witness :
    fixSplitData [levelTok, "2".toList, "x".toList]
      = [levelTok ++ ' ' :: "2".toList, "x".toList] := by
  have h := (C3_token_repair).1 "2".toList ["x".toList] (by decide) (by decide)
  simp only [fixSplitData] at h
  exact h

/-- Claim C7: manual retry selects exactly the records whose status is
`pending` or `error` (each dispatched independently); `sent` and
`sending` records are never selected. -/
theorem C7_retry_selection (hist : List ScanRecord) (confirmed : Bool)
    (r : ScanRecord) :
    (r ∈ retryPending hist confirmed →
        r ∈ hist ∧ (r.status = Status.pending ∨ r.status = Status.error)) ∧
    (confirmed = true → r ∈ hist →
        (r.status = Status.pending ∨ r.status = Status.error) →
        r ∈ retryPending hist confirmed) ∧
    (r.status = Status.sent → r ∉ retryPending hist confirmed) ∧
    (r.status = Status.sending → r ∉ retryPending hist confirmed) := by
  have hsel : ∀ q : ScanRecord, q ∈ retrySelection hist ↔
      q ∈ hist ∧ (q.status = Status.pending ∨ q.status = Status.error) := by
    intro q
    simp [retrySelection, List.mem_filter]
  have hsub : ∀ q : ScanRecord, q ∈ retryPending hist confirmed →
      q ∈ retrySelection hist := by
    intro q hq
    unfold retryPending at hq
    by_cases he : (retrySelection hist).isEmpty <;> simp [he] at hq
    cases confirmed <;> simp at hq
    exact hq
  refine ⟨?_, ?_, ?_, ?_⟩
  · intro hr
    exact (hsel r).1 (hsub r hr)
  · intro hc hmem hst
    have hrsel : r ∈ retrySelection hist := (hsel r).2 ⟨hmem, hst⟩
    have hne : (retrySelection hist).isEmpty = false := by
      cases hh : retrySelection hist with
      | nil => rw [hh] at hrsel; cases hrsel
      | cons a l => rfl
    simp [retryPending, hne, hc]
    exact hrsel
  · intro hst hr
    rcases (hsel r).1 (hsub r hr) with ⟨_, h | h⟩ <;> rw [hst] at h <;> cases h
  · intro hst hr
    rcases (hsel r).1 (hsub r hr) with ⟨_, h | h⟩ <;> rw [hst] at h <;> cases h

/-- Claim C7 witness: a pending record is selected for retry while a sent
record in the same history is not. -/
theorem C7_retry_selection_witness :
    sampleRec ∈ retryPending [sampleRec, sampleSentRec] true ∧
    sampleSentRec ∉ retryPending [sampleRec, sampleSentRec] true := by
  constructor
  · exact (C7_retry_selection [sampleRec, sampleSentRec] true sampleRec).2.1
      rfl (by simp) (Or.inl rfl)
  · exact (C7_retry_selection [sampleRec, sampleSentRec] true sampleSentRec).2.2.1
      rfl

/-! ## Claims C6, C1, C8 -/


theorem getElem?_updateRecordStatus (hist : List ScanRecord) (id : Nat)
    (st : Status) (em : Option Str) (i : Nat) :
    (updateRecordStatus hist id st em)[i]?
      = hist[i]?.map
          (fun r => if r.id == id then { r with status := st, errorMsg := em }
                    else r) := by
  simp [updateRecordStatus, List.getElem?_map]

/-- Claim C6: with a configured URL, the record is marked `sending`
(error message cleared) in the state from which the request is issued; a
completing send yields `sent` with the error message cleared, a throwing
send yields `error` with a non-empty message; records with a different id
are untouched by every one of these transitions. -/
theorem C6_status_transitions (hist : List ScanRecord) (url : Str)
    (record : ScanRecord) (ts : Str) (outcome : FetchOutcome)
    (hu : url.isEmpty = false) :
    ((uploadData hist url record ts outcome).sendingState
        = some (updateRecordStatus hist record.id Status.sending none)) ∧
    (∀ (i : Nat) (q : ScanRecord), hist[i]? = some q → q.id ≠ record.id →
        (uploadData hist url record ts outcome).final[i]? = some q ∧
        (updateRecordStatus hist record.id Status.sending none)[i]?
          = some q) ∧
    (∀ (i : Nat) (q : ScanRecord), hist[i]? = some q → q.id = record.id →
        (updateRecordStatus hist record.id Status.sending none)[i]?
          = some { q with status := Status.sending, errorMsg := none } ∧
        (outcome = FetchOutcome.ok →
          (uploadData hist url record ts outcome).final[i]?
            = some { q with status := Status.sent, errorMsg := none }) ∧
        (∀ m, outcome = FetchOutcome.fail m → ∃ msg : Str, msg ≠ [] ∧
          (uploadData hist url record ts outcome).final[i]?
            = some { q with status := Status.error, errorMsg := some msg })) := by
  refine ⟨?_, ?_, ?_⟩
  · simp [uploadData, hu]
  · intro i q hq hne
    have hbeq : (q.id == record.id) = false := by simp [hne]
    constructor
    · cases outcome <;>
        simp [uploadData, hu, getElem?_updateRecordStatus, hq, hbeq, hne]
    · simp [getElem?_updateRecordStatus, hq, hbeq, hne]
  · intro i q hq heq
    have hbeq : (q.id == record.id) = true := by simp [heq]
    refine ⟨?_, ?_, ?_⟩
    · simp [getElem?_updateRecordStatus, hq, hbeq, heq]
    · rintro rfl
      simp [uploadData, hu, getElem?_updateRecordStatus, hq, hbeq, heq]
    · rintro m rfl
      refine ⟨if m.isEmpty then "Network Error".toList else m, ?_, ?_⟩
      · cases m with
        | nil => decide
        | cons c cs => simp
      · simp [uploadData, hu, getElem?_updateRecordStatus, hq, hbeq, heq]

/-- Claim C6 witness: a failing send with a falsy error message leaves
the sample record in `error` with the non-empty default message. -/
theorem C6_status_transitions_witness :
    ∃ msg : Str, msg ≠ [] ∧
      ((uploadData [sampleRec] "u".toList sampleRec []
          (FetchOutcome.fail [])).final)[0]?
        = some { sampleRec with status := Status.error, errorMsg := some msg } := by
  exact ((C6_status_transitions [sampleRec] "u".toList sampleRec []
      (FetchOutcome.fail []) (by decide)).2.2 0 sampleRec rfl rfl).2.2 [] rfl

/-- Claim C1: the dedup identity key is the dash-separated concatenation
of event code, match level, match number, team number and scouter name
when the last three are present and non-empty, and the first 100 raw
characters otherwise; when some history record has an equal key the scan
is dropped — the history is unchanged and no upload is dispatched — and
scanning the same payload twice always leaves exactly the history of the
first scan, so the second identical scan stores nothing. -/
theorem C1_dedup_gate (hist : List ScanRecord) (useLZ : Bool)
    (now now2 : Nat) (ts ts2 : Str) (data : Str) (dRes : Option Str) :
    (∀ (p : List (Str × Str)) (raw : Str),
        generateRecordKey (some p) raw =
          if !(lookupD p kMatchNumber).isEmpty
              && !(lookupD p kTeamNumber).isEmpty
              && !(lookupD p kScouterName).isEmpty then
            lookupD p kEventCode ++ '-' :: lookupD p kMatchLevel
              ++ '-' :: lookupD p kMatchNumber ++ '-' :: lookupD p kTeamNumber
              ++ '-' :: lookupD p kScouterName
          else raw.take 100) ∧
    (∀ raw : Str, generateRecordKey none raw = raw.take 100) ∧
    ((isDuplicateRecord hist
        (some (parseFrcData (chooseProcessed useLZ (stripBreaks (trim data)) dRes)))
        (chooseProcessed useLZ (stripBreaks (trim data)) dRes)).isSome = true →
      handleScan hist useLZ now ts data dRes = (hist, none)) ∧
    (handleScan (handleScan hist useLZ now ts data dRes).1 useLZ now2 ts2 data dRes
        = ((handleScan hist useLZ now ts data dRes).1, none)) := by
  refine ⟨fun p raw => rfl, fun raw => rfl, ?_, ?_⟩
  · intro h
    rcases hdup : isDuplicateRecord hist
        (some (parseFrcData (chooseProcessed useLZ (stripBreaks (trim data)) dRes)))
        (chooseProcessed useLZ (stripBreaks (trim data)) dRes) with _ | r
    · rw [hdup] at h; simp at h
    · simp [handleScan, hdup]
  · rcases hdup : isDuplicateRecord hist
        (some (parseFrcData (chooseProcessed useLZ (stripBreaks (trim data)) dRes)))
        (chooseProcessed useLZ (stripBreaks (trim data)) dRes) with _ | r
    · simp only [handleScan, hdup]
      simp [isDuplicateRecord, List.find?_cons]
    · simp [handleScan, hdup]

/-- Claim C1 witness: scanning the sample payload into an empty history
and scanning it again — the second scan is recognised as a duplicate and
drops the payload without touching the history. -/
theorem C1_dedup_gate_witness :
    (isDuplicateRecord (handleScan [] false 1 [] sampleData none).1
        (some (parseFrcData (chooseProcessed false (stripBreaks (trim sampleData)) none)))
        (chooseProcessed false (stripBreaks (trim sampleData)) none)).isSome = true ∧
    handleScan (handleScan [] false 1 [] sampleData none).1 false 2 [] sampleData none
      = ((handleScan [] false 1 [] sampleData none).1, none) := by
  constructor
  · decide
  · exact (C1_dedup_gate (handleScan [] false 1 [] sampleData none).1 false
      2 3 [] [] sampleData none).2.2.1 (by decide)

/-- Claim C8, as stated, is false: ids are wall-clock readings, and two
distinct payloads ingested at the same millisecond receive the same id —
the store then holds two records whose ids are not unique. -/
theorem C8_counterexample :
    (handleScan (handleScan [] false 100 [] "Alice CMP Qual 1 R1 254".toList none).1
        false 100 [] "Bob CMP Qual 1 R1 254".toList none).1.length = 2 ∧
    ¬ ((handleScan (handleScan [] false 100 [] "Alice CMP Qual 1 R1 254".toList none).1
        false 100 [] "Bob CMP Qual 1 R1 254".toList none).1.map
          (fun r => r.id)).Nodup := by
  exact ⟨by decide, by decide⟩

/-- Claim C8 (amended): ids are clock readings taken at ingestion, so
they are increasing and unique only on runs in which every ingestion
observes a clock value strictly above every id already stored; under that
hypothesis one ingestion step keeps the newest-first store strictly
descending in id, which yields uniqueness of ids.  (Two ingestions at the
same clock value can collide, as `C8_counterexample` shows.) -/
theorem C8_id_uniqueness (hist : List ScanRecord) (useLZ : Bool) (now : Nat)
    (ts data : Str) (dRes : Option Str)
    (hlt : ∀ r ∈ hist, r.id < now) :
    (∀ r ∈ (handleScan hist useLZ now ts data dRes).1, r.id ≤ now) ∧
    (List.Pairwise (fun a b => b.id < a.id) hist →
      List.Pairwise (fun a b => b.id < a.id)
        (handleScan hist useLZ now ts data dRes).1) ∧
    (List.Pairwise (fun a b => b.id < a.id)
        (handleScan hist useLZ now ts data dRes).1 →
      ((handleScan hist useLZ now ts data dRes).1.map (fun r => r.id)).Nodup) := by
  have hnodup : ∀ l : List ScanRecord,
      List.Pairwise (fun a b => b.id < a.id) l →
      (l.map (fun r => r.id)).Nodup := by
    intro l hl
    have h2 : List.Pairwise (fun a b : Nat => a ≠ b) (l.map (fun r => r.id)) :=
      List.Pairwise.map (fun r : ScanRecord => r.id)
        (fun a b h => Nat.ne_of_gt h) hl
    exact h2
  rcases hdup : isDuplicateRecord hist
      (some (parseFrcData (chooseProcessed useLZ (stripBreaks (trim data)) dRes)))
      (chooseProcessed useLZ (stripBreaks (trim data)) dRes) with _ | r
  · simp only [handleScan, hdup]
    refine ⟨?_, ?_, hnodup _⟩
    · intro r hr
      rcases List.mem_cons.mp hr with hr | hr
      · subst hr; exact Nat.le_refl now
      · exact Nat.le_of_lt (hlt r hr)
    · intro hp
      refine List.Pairwise.cons ?_ hp
      intro b hb
      exact hlt b hb
  · simp only [handleScan, hdup]
    refine ⟨?_, ?_, hnodup _⟩
    · intro r hr
      exact Nat.le_of_lt (hlt r hr)
    · exact fun hp => hp

/-- Claim C8 witness: one ingestion into the empty store under the
strict-clock hypothesis yields a store with pairwise-distinct ids. -/
theorem C8_id_uniqueness_witness :
    ((handleScan [] false 5 [] sampleData none).1.map (fun r => r.id)).Nodup := by
  exact (C8_id_uniqueness [] false 5 [] sampleData none (by simp)).2.2 (by decide)

/-! ## Column-mapping lemmas and claims C4, C9 -/

theorem lookup_mapCols_not_mem (parts : List Str) (b : Bool) (col : Str) :
    ∀ (cols : List Str) (idx : Nat), col ∉ cols →
      List.lookup col (mapCols cols parts b idx) = none := by
  intro cols
  induction cols with
  | nil => intro idx h; simp [mapCols]
  | cons c cs ih =>
    intro idx h
    have hne : col ≠ c := fun he => h (he ▸ List.mem_cons_self c cs)
    have hcs : col ∉ cs := fun hm => h (List.mem_cons_of_mem c hm)
    have hbeq : (col == c) = false := beq_eq_false_iff_ne.mpr hne
    cases cs with
    | nil =>
      by_cases hidx : idx < parts.length <;>
        simp [mapCols, hidx, List.lookup, hbeq]
    | cons c2 cs2 =>
      by_cases hidx : idx < parts.length <;>
        simp [mapCols, hidx, List.lookup, hbeq, ih (idx + 1) hcs]

theorem lookup_mapCols (parts : List Str) (b : Bool) :
    ∀ (cols : List Str) (idx j : Nat) (hj : j < cols.length), cols.Nodup →
      List.lookup cols[j] (mapCols cols parts b idx) =
        (if idx + j < parts.length then
          some (if j + 1 = cols.length ∧ b = false
                then joinSpace (parts.drop (idx + j))
                else parts.getD (idx + j) [])
        else none) := by
  intro cols
  induction cols with
  | nil => intro idx j hj; exact absurd hj (Nat.not_lt_zero j)
  | cons c cs ih =>
    intro idx j hj hnd
    cases cs with
    | nil =>
      have hj0 : j = 0 := by
        have := hj
        simp [List.length_cons] at this
        omega
      subst hj0
      by_cases hidx : idx < parts.length
      · have hcond : idx + 0 < parts.length := by omega
        cases b <;>
          simp [mapCols, hidx, hcond, List.lookup, beq_self_eq_true]
      · have hcond : ¬ idx + 0 < parts.length := by omega
        simp [mapCols, hidx, hcond, List.lookup]
    | cons c2 cs2 =>
      have hc : c ∉ c2 :: cs2 := (List.nodup_cons.mp hnd).1
      have hnd2 : (c2 :: cs2).Nodup := (List.nodup_cons.mp hnd).2
      cases j with
      | zero =>
        by_cases hidx : idx < parts.length
        · have hcond : idx + 0 < parts.length := by omega
          have hlen : ¬ (0 + 1 = (c :: c2 :: cs2).length ∧ b = false) := by
            simp [List.length_cons]
          simp [mapCols, hidx, hcond, hlen, List.lookup]
        · have hcond : ¬ idx + 0 < parts.length := by omega
          simp [mapCols, hidx, hcond, List.lookup,
            lookup_mapCols_not_mem parts b c (c2 :: cs2) (idx + 1) hc]
      | succ j' =>
        have hj' : j' < (c2 :: cs2).length := by
          have := hj
          simp [List.length_cons] at this ⊢
          omega
        have htarget : (c :: c2 :: cs2)[j' + 1] = (c2 :: cs2)[j'] := rfl
        have hmem : (c2 :: cs2)[j'] ∈ c2 :: cs2 := List.getElem_mem hj'
        have hne : (c2 :: cs2)[j'] ≠ c := fun he => hc (he ▸ hmem)
        have hbeq : ((c2 :: cs2)[j'] == c) = false := beq_eq_false_iff_ne.mpr hne
        rw [htarget]
        have harith : idx + (j' + 1) = idx + 1 + j' := by omega
        by_cases hidx : idx < parts.length
        · rw [show mapCols (c :: c2 :: cs2) parts b idx
              = (c, parts.getD idx []) :: mapCols (c2 :: cs2) parts b (idx + 1)
            from by simp [mapCols, hidx]]
          rw [show List.lookup (c2 :: cs2)[j']
                ((c, parts.getD idx []) :: mapCols (c2 :: cs2) parts b (idx + 1))
              = List.lookup (c2 :: cs2)[j']
                  (mapCols (c2 :: cs2) parts b (idx + 1))
            from by simp [List.lookup, hbeq]]
          rw [ih (idx + 1) j' hj' hnd2, harith]
          by_cases hcond : idx + 1 + j' < parts.length
          · rw [if_pos hcond, if_pos hcond]
            have hiff : (j' + 1 + 1 = (c :: c2 :: cs2).length ∧ b = false)
                ↔ (j' + 1 = (c2 :: cs2).length ∧ b = false) := by
              constructor
              · rintro ⟨h1, h2⟩
                refine ⟨?_, h2⟩
                simp [List.length_cons] at h1 ⊢
                omega
              · rintro ⟨h1, h2⟩
                refine ⟨?_, h2⟩
                simp [List.length_cons] at h1 ⊢
                omega
            rw [if_congr hiff rfl rfl]
          · rw [if_neg hcond, if_neg hcond]
        · rw [show mapCols (c :: c2 :: cs2) parts b idx
              = mapCols (c2 :: cs2) parts b (idx + 1)
            from by simp [mapCols, hidx]]
          rw [ih (idx + 1) j' hj' hnd2]
          rw [if_neg (by omega), if_neg (by omega)]

theorem mapCols_keys (parts : List Str) (b : Bool) :
    ∀ (cols : List Str) (idx : Nat),
      (mapCols cols parts b idx).map Prod.fst
        = cols.take (parts.length - idx) := by
  intro cols
  induction cols with
  | nil => intro idx; simp [mapCols]
  | cons c cs ih =>
    intro idx
    cases cs with
    | nil =>
      by_cases hidx : idx < parts.length
      · obtain ⟨k, hk⟩ : ∃ k, parts.length - idx = k + 1 :=
          ⟨parts.length - idx - 1, by omega⟩
        simp [mapCols, hidx, hk]
      · have h1 : parts.length - idx = 0 := by omega
        simp [mapCols, hidx, h1]
    | cons c2 cs2 =>
      by_cases hidx : idx < parts.length
      · obtain ⟨k, hk⟩ : ∃ k, parts.length - idx = k + 1 :=
          ⟨parts.length - idx - 1, by omega⟩
        have hk2 : parts.length - (idx + 1) = k := by omega
        simp [mapCols, hidx, ih (idx + 1), hk, hk2]
      · have h1 : parts.length - idx = 0 := by omega
        have h2 : parts.length - (idx + 1) = 0 := by omega
        simp [mapCols, hidx, ih (idx + 1), h1, h2]

theorem frc_getD_eq (j : Nat) (hj : j < FRC_COLUMNS.length) :
    FRC_COLUMNS.getD j [] = FRC_COLUMNS[j] := by
  rw [List.getD_eq_getElem FRC_COLUMNS [] hj]

/-- Claim C4: tokens are assigned to Schema fields in order — every
non-final field holds exactly the token at its index when one exists and
is absent otherwise, while the final (comments) field holds the token at
its index on the tab path and the space-join of all remaining tokens on
the whitespace path. -/
theorem C4_column_mapping (raw : Str) :
    (∀ j : Nat, j < 17 →
      List.lookup (FRC_COLUMNS.getD j []) (parseFrcData raw)
        = if j < (frcParts raw).length
          then some ((frcParts raw).getD j []) else none) ∧
    (List.lookup (FRC_COLUMNS.getD 17 []) (parseFrcData raw)
        = if 17 < (frcParts raw).length then
            some (if hasTab (trim raw) then (frcParts raw).getD 17 []
                  else joinSpace ((frcParts raw).drop 17))
          else none) := by
  have hnd : FRC_COLUMNS.Nodup := by decide
  have hlen : FRC_COLUMNS.length = 18 := by decide
  constructor
  · intro j hj
    have hj18 : j < FRC_COLUMNS.length := by omega
    rw [frc_getD_eq j hj18]
    rw [show parseFrcData raw
        = mapCols FRC_COLUMNS (frcParts raw) (hasTab (trim raw)) 0 from rfl]
    rw [lookup_mapCols (frcParts raw) (hasTab (trim raw)) FRC_COLUMNS 0 j hj18 hnd]
    simp only [Nat.zero_add]
    have hcond : ¬ (j + 1 = FRC_COLUMNS.length ∧ hasTab (trim raw) = false) := by
      rw [hlen]
      rintro ⟨h1, _⟩
      omega
    by_cases hjl : j < (frcParts raw).length
    · rw [if_pos hjl, if_pos hjl, if_neg hcond]
    · rw [if_neg hjl, if_neg hjl]
  · have hj18 : (17 : Nat) < FRC_COLUMNS.length := by omega
    rw [frc_getD_eq 17 hj18]
    rw [show parseFrcData raw
        = mapCols FRC_COLUMNS (frcParts raw) (hasTab (trim raw)) 0 from rfl]
    rw [lookup_mapCols (frcParts raw) (hasTab (trim raw)) FRC_COLUMNS 0 17 hj18 hnd]
    simp only [Nat.zero_add]
    by_cases h17 : 17 < (frcParts raw).length
    · rw [if_pos h17, if_pos h17]
      cases hb : hasTab (trim raw) <;> simp [hlen, hb]
    · rw [if_neg h17, if_neg h17]

/-- Claim C4 witness: the fourth column of the sample payload. -/
theorem C4_column_mapping_witness :
    List.lookup (FRC_COLUMNS.getD 3 []) (parseFrcData sampleData)
      = if 3 < (frcParts sampleData).length
        then some ((frcParts sampleData).getD 3 []) else none := by
  exact (C4_column_mapping sampleData).1 3 (by omega)

/-- Claim C9: the field parser is total by construction (it is a Lean
function), its result binds a prefix of the Schema columns in order —
exactly one binding per column that has a token — and every column
beyond the token count is an absent key, not a placeholder. -/
theorem C9_parser_totality (raw : Str) :
    ((parseFrcData raw).map Prod.fst
        = FRC_COLUMNS.take (frcParts raw).length) ∧
    ((parseFrcData raw).map Prod.fst).Nodup ∧
    (∀ kv ∈ parseFrcData raw, kv.1 ∈ FRC_COLUMNS) ∧
    (∀ j : Nat, j < FRC_COLUMNS.length → (frcParts raw).length ≤ j →
      List.lookup (FRC_COLUMNS.getD j []) (parseFrcData raw) = none) := by
  have hnd : FRC_COLUMNS.Nodup := by decide
  have hkeys : (parseFrcData raw).map Prod.fst
      = FRC_COLUMNS.take (frcParts raw).length := by
    have h := mapCols_keys (frcParts raw) (hasTab (trim raw)) FRC_COLUMNS 0
    simpa using h
  refine ⟨hkeys, ?_, ?_, ?_⟩
  · rw [hkeys]
    exact List.Nodup.sublist (List.take_sublist _ _) hnd
  · intro kv hkv
    have hm : kv.1 ∈ (parseFrcData raw).map Prod.fst :=
      List.mem_map_of_mem Prod.fst hkv
    rw [hkeys] at hm
    exact List.take_subset _ _ hm
  · intro j hj hge
    rw [frc_getD_eq j hj]
    rw [show parseFrcData raw
        = mapCols FRC_COLUMNS (frcParts raw) (hasTab (trim raw)) 0 from rfl]
    rw [lookup_mapCols (frcParts raw) (hasTab (trim raw)) FRC_COLUMNS 0 j hj hnd]
    rw [if_neg (by omega)]

/-- Claim C9 witness: a two-token payload leaves the fourth column as an
absent key. -/
theorem C9_parser_totality_witness :
    List.lookup (FRC_COLUMNS.getD 3 []) (parseFrcData "Alice CMP".toList)
      = none := by
  exact (C9_parser_totality "Alice CMP".toList).2.2.2 3 (by decide) (by decide)

/-! ## Round-trip machinery for claim C5 -/

theorem splitSingle_ne_nil (p : Char → Bool) : ∀ s : Str, splitSingle p s ≠ [] := by
  intro s
  induction s with
  | nil => simp [splitSingle]
  | cons c rest ih =>
    by_cases hc : p c
    · simp [splitSingle, hc]
    · cases hs : splitSingle p rest with
      | nil => exact absurd hs ih
      | cons x xs => simp [splitSingle, hc, hs]

theorem splitSingle_append (p : Char → Bool) :
    ∀ (x : Str), (∀ c ∈ x, p c = false) →
    ∀ (s y : Str) (ys : List Str), splitSingle p s = y :: ys →
      splitSingle p (x ++ s) = (x ++ y) :: ys := by
  intro x
  induction x with
  | nil =>
    intro _ s y ys h
    simpa using h
  | cons c x' ih =>
    intro hx s y ys h
    have hc : p c = false := hx c (List.mem_cons_self c x')
    have hrec := ih (fun c' hc' => hx c' (List.mem_cons_of_mem c hc')) s y ys h
    simp [splitSingle, hc, hrec]

theorem splitSingle_all_not (p : Char → Bool) :
    ∀ (s : Str), (∀ c ∈ s, p c = false) → splitSingle p s = [s] := by
  intro s
  induction s with
  | nil => intro _; rfl
  | cons c rest ih =>
    intro h
    have hc : p c = false := h c (List.mem_cons_self _ _)
    simp [splitSingle, hc,
      ih (fun c' hc' => h c' (List.mem_cons_of_mem _ hc'))]

theorem midFilter_cons_ne_nil (x : Str) (hx : x ≠ []) (l : List Str) :
    midFilter (x :: l) = x :: midFilter l := by
  cases l with
  | nil => rfl
  | cons y r =>
    have hemp : x.isEmpty = false := by
      cases x with
      | nil => exact absurd rfl hx
      | cons a as => rfl
    simp [midFilter, hemp]

theorem splitWs_all_not (s : Str) (h : ∀ c ∈ s, isWs c = false) :
    splitWs s = [s] := by
  simp [splitWs, splitSingle_all_not isWs s h, midFilter]

theorem splitWs_append_sep (x : Str) (hx : ∀ c ∈ x, isWs c = false)
    (d : Char) (hd : isWs d = false) (z : Str) :
    splitWs (x ++ ' ' :: d :: z) = x :: splitWs (d :: z) := by
  rcases hz : splitSingle isWs z with _ | ⟨y, ys⟩
  · exact absurd hz (splitSingle_ne_nil isWs z)
  · have hdz : splitSingle isWs (d :: z) = (d :: y) :: ys := by
      simp [splitSingle, hd, hz]
    have hsp : splitSingle isWs (' ' :: d :: z) = [] :: (d :: y) :: ys := by
      have hws : isWs ' ' = true := by decide
      simp [splitSingle, hws, hd, hz]
    have hall : splitSingle isWs (x ++ ' ' :: d :: z)
        = (x ++ []) :: (d :: y) :: ys :=
      splitSingle_append isWs x hx (' ' :: d :: z) [] ((d :: y) :: ys) hsp
    rw [List.append_nil] at hall
    rw [splitWs, hall, splitWs, hdz]
    show x :: midFilter ((d :: y) :: ys) = x :: ((d :: y) :: midFilter ys)
    rw [midFilter_cons_ne_nil (d :: y) (by simp) ys]

theorem digit_not_ws (c : Char) (h : c.isDigit = true) : isWs c = false := by
  by_contra hws
  have hws' : isWs c = true := by
    revert hws; cases isWs c <;> simp
  simp only [isWs, Bool.or_eq_true, beq_iff_eq] at hws'
  rcases hws' with ((h1 | h1) | h1) | h1 <;> subst h1 <;>
    exact absurd h (by decide)

theorem fixSplitData_ne_nil : ∀ l : List Str, l ≠ [] → fixSplitData l ≠ [] := by
  intro l hl
  match l with
  | [curr] => simp [fixSplitData]
  | curr :: next :: rest =>
    by_cases hm : (curr == levelTok && (!next.isEmpty && next.all Char.isDigit))
    · simp [fixSplitData, hm]
    · simp [fixSplitData, hm]

theorem joinSpace_cons_of_ne_nil (x : Str) (l : List Str) (hl : l ≠ []) :
    joinSpace (x :: l) = x ++ ' ' :: joinSpace l := by
  cases l with
  | nil => exact absurd rfl hl
  | cons y r => rfl

theorem joinSpace_cons_head (c : Char) (t : Str) (ts : List Str) :
    ∃ w : Str, joinSpace ((c :: t) :: ts) = c :: w := by
  cases ts with
  | nil => exact ⟨t, rfl⟩
  | cons u r => exact ⟨t ++ ' ' :: joinSpace (u :: r), rfl⟩

theorem joinSpace_fixSplit_head :
    ∀ l : List Str, l ≠ [] →
    (∀ x ∈ l, x ≠ [] ∧ ∀ c ∈ x, isWs c = false) →
    ∃ (e : Char) (w : Str),
      joinSpace (fixSplitData l) = e :: w ∧ isWs e = false := by
  intro l hl hg
  match l with
  | [curr] =>
    obtain ⟨hne, hws⟩ := hg curr (List.mem_cons_self _ _)
    rcases curr with _ | ⟨c0, cr⟩
    · exact absurd rfl hne
    · obtain ⟨w, hw⟩ := joinSpace_cons_head c0 cr (fixSplitData [])
      refine ⟨c0, w, ?_, hws c0 (List.mem_cons_self _ _)⟩
      simpa [fixSplitData] using hw
  | curr :: next :: rest =>
    obtain ⟨hne, hws⟩ := hg curr (List.mem_cons_self _ _)
    rcases curr with _ | ⟨c0, cr⟩
    · exact absurd rfl hne
    by_cases hm : ((c0 :: cr) == levelTok && (!next.isEmpty && next.all Char.isDigit))
    · obtain ⟨w, hw⟩ :=
        joinSpace_cons_head c0 (cr ++ ' ' :: next) (fixSplitData rest)
      refine ⟨c0, w, ?_, hws c0 (List.mem_cons_self _ _)⟩
      rw [show fixSplitData ((c0 :: cr) :: next :: rest)
          = ((c0 :: cr) ++ ' ' :: next) :: fixSplitData rest
        from by simp [fixSplitData, hm]]
      simpa using hw
    · obtain ⟨w, hw⟩ :=
        joinSpace_cons_head c0 cr (fixSplitData (next :: rest))
      refine ⟨c0, w, ?_, hws c0 (List.mem_cons_self _ _)⟩
      rw [show fixSplitData ((c0 :: cr) :: next :: rest)
          = (c0 :: cr) :: fixSplitData (next :: rest)
        from by simp [fixSplitData, hm]]
      exact hw

theorem splitWs_joinSpace_fixSplit_aux :
    ∀ (n : Nat) (ws0 : List Str), ws0.length ≤ n → ws0 ≠ [] →
    (∀ x ∈ ws0, x ≠ [] ∧ ∀ c ∈ x, isWs c = false) →
    splitWs (joinSpace (fixSplitData ws0)) = ws0 := by
  intro n
  induction n with
  | zero =>
    intro ws0 hlen hne _
    rcases ws0 with _ | ⟨curr, tail⟩
    · exact absurd rfl hne
    · simp at hlen
  | succ n ih =>
    intro ws0 hlen hne hg
    rcases ws0 with _ | ⟨curr, tail⟩
    · exact absurd rfl hne
    rcases tail with _ | ⟨next, rest⟩
    · obtain ⟨hcne, hcws⟩ := hg curr (List.mem_cons_self _ _)
      rw [show fixSplitData [curr] = [curr] from rfl,
        show joinSpace [curr] = curr from rfl]
      exact splitWs_all_not curr hcws
    obtain ⟨hcne, hcws⟩ := hg curr (List.mem_cons_self _ _)
    obtain ⟨hnne, hnws⟩ := hg next (by simp)
    rcases next with _ | ⟨d, z'⟩
    · exact absurd rfl hnne
    have hd : isWs d = false := hnws d (List.mem_cons_self _ _)
    by_cases hm : (curr == levelTok
        && (!(d :: z').isEmpty && (d :: z').all Char.isDigit)) = true
    · rw [show fixSplitData (curr :: (d :: z') :: rest)
          = (curr ++ ' ' :: (d :: z')) :: fixSplitData rest
        from by simp only [fixSplitData]; rw [if_pos hm]]
      rcases rest with _ | ⟨r1, rest'⟩
      · rw [show fixSplitData ([] : List Str) = [] from rfl]
        rw [show joinSpace [curr ++ ' ' :: d :: z'] = curr ++ ' ' :: d :: z'
          from rfl]
        rw [splitWs_append_sep curr hcws d hd z']
        rw [splitWs_all_not (d :: z') hnws]
      · have hrne : (r1 :: rest') ≠ [] := by simp
        have hfne : fixSplitData (r1 :: rest') ≠ [] :=
          fixSplitData_ne_nil _ hrne
        have hgr : ∀ x ∈ r1 :: rest', x ≠ [] ∧ ∀ c ∈ x, isWs c = false :=
          fun x hx => hg x (by simp [hx])
        obtain ⟨e, w, hew, hegw⟩ :=
          joinSpace_fixSplit_head (r1 :: rest') hrne hgr
        rw [joinSpace_cons_of_ne_nil _ _ hfne, hew]
        have hassoc : (curr ++ ' ' :: d :: z') ++ ' ' :: e :: w
            = curr ++ ' ' :: d :: (z' ++ ' ' :: e :: w) := by simp
        rw [hassoc]
        rw [splitWs_append_sep curr hcws d hd (z' ++ ' ' :: e :: w)]
        rw [show d :: (z' ++ ' ' :: e :: w) = (d :: z') ++ ' ' :: e :: w
          from rfl]
        rw [splitWs_append_sep (d :: z') hnws e hegw w]
        rw [← hew]
        rw [ih (r1 :: rest') (by simp at hlen ⊢; omega) hrne hgr]
    · rw [show fixSplitData (curr :: (d :: z') :: rest)
          = curr :: fixSplitData ((d :: z') :: rest)
        from by simp only [fixSplitData]; rw [if_neg hm]]
      have hnr : ((d :: z') :: rest) ≠ [] := by simp
      have hfne : fixSplitData ((d :: z') :: rest) ≠ [] :=
        fixSplitData_ne_nil _ hnr
      have hgr : ∀ x ∈ (d :: z') :: rest, x ≠ [] ∧ ∀ c ∈ x, isWs c = false :=
        fun x hx => hg x (List.mem_cons_of_mem _ hx)
      obtain ⟨e, w, hew, hegw⟩ :=
        joinSpace_fixSplit_head ((d :: z') :: rest) hnr hgr
      rw [joinSpace_cons_of_ne_nil _ _ hfne, hew]
      rw [splitWs_append_sep curr hcws e hegw w]
      rw [← hew]
      rw [ih ((d :: z') :: rest) (by simp at hlen ⊢; omega) hnr hgr]

theorem splitWs_joinSpace_fixSplitData (ws0 : List Str) (hne : ws0 ≠ [])
    (hg : ∀ x ∈ ws0, x ≠ [] ∧ ∀ c ∈ x, isWs c = false) :
    splitWs (joinSpace (fixSplitData ws0)) = ws0 :=
  splitWs_joinSpace_fixSplit_aux ws0.length ws0 (Nat.le_refl _) hne hg

theorem splitSingle_cons_pos (p : Char → Bool) (a : Char) (l : Str)
    (h : p a = true) : splitSingle p (a :: l) = [] :: splitSingle p l := by
  simp [splitSingle, h]

theorem splitSingle_cons_neg (p : Char → Bool) (a : Char) (l : Str)
    (h : p a = false) (y : Str) (ys : List Str)
    (hs : splitSingle p l = y :: ys) :
    splitSingle p (a :: l) = (a :: y) :: ys := by
  simp only [splitSingle, h, Bool.false_eq_true, if_false]
  rw [hs]

theorem splitSingle_chars (p : Char → Bool) :
    ∀ (s x : Str), x ∈ splitSingle p s → ∀ c ∈ x, p c = false := by
  intro s
  induction s with
  | nil =>
    intro x hx c hc
    simp [splitSingle] at hx
    subst hx
    cases hc
  | cons a rest ih =>
    intro x hx c hc
    cases hpa : p a
    · rcases hs : splitSingle p rest with _ | ⟨y, ys⟩
      · exact absurd hs (splitSingle_ne_nil p rest)
      rw [show splitSingle p (a :: rest) = (a :: y) :: ys
        from by simp [splitSingle, hpa, hs]] at hx
      rcases List.mem_cons.mp hx with h | h
      · subst h
        rcases List.mem_cons.mp hc with h' | h'
        · subst h'; exact hpa
        · exact ih y (by rw [hs]; exact List.mem_cons_self _ _) c h'
      · exact ih x (by rw [hs]; exact List.mem_cons_of_mem _ h) c hc
    · rw [show splitSingle p (a :: rest) = [] :: splitSingle p rest
        from by simp [splitSingle, hpa]] at hx
      rcases List.mem_cons.mp hx with h | h
      · subst h; cases hc
      · exact ih x h c hc

theorem midFilter_mem : ∀ (l : List Str) (x : Str), x ∈ midFilter l → x ∈ l := by
  intro l
  induction l with
  | nil => intro x hx; simp [midFilter] at hx
  | cons a l' ih =>
    intro x hx
    cases l' with
    | nil => simpa [midFilter] using hx
    | cons b r =>
      by_cases ha : a.isEmpty
      · rw [show midFilter (a :: b :: r) = midFilter (b :: r)
          from by simp [midFilter, ha]] at hx
        exact List.mem_cons_of_mem _ (ih x hx)
      · rw [show midFilter (a :: b :: r) = a :: midFilter (b :: r)
          from by simp [midFilter, ha]] at hx
        rcases List.mem_cons.mp hx with h | h
        · subst h; exact List.mem_cons_self _ _
        · exact List.mem_cons_of_mem _ (ih x h)

theorem splitWs_subset_splitSingle (s x : Str) (hx : x ∈ splitWs s) :
    x ∈ splitSingle isWs s := by
  rcases hs : splitSingle isWs s with _ | ⟨y, ys⟩
  · exact absurd hs (splitSingle_ne_nil isWs s)
  · rw [splitWs, hs] at hx
    have hx2 : x ∈ y :: midFilter ys := hx
    rcases List.mem_cons.mp hx2 with h | h
    · subst h; exact List.mem_cons_self _ _
    · exact List.mem_cons_of_mem _ (midFilter_mem ys x h)

theorem splitWs_chars (s x : Str) (hx : x ∈ splitWs s) :
    ∀ c ∈ x, isWs c = false :=
  splitSingle_chars isWs s x (splitWs_subset_splitSingle s x hx)

theorem splitSingle_getLast_ne_nil (p : Char → Bool) :
    ∀ (s : Str), s ≠ [] → (∀ c, s.getLast? = some c → p c = false) →
    ∀ y : Str, (splitSingle p s).getLast? = some y → y ≠ [] := by
  intro s
  induction s with
  | nil => intro h; exact absurd rfl h
  | cons a rest ih =>
    intro _ hlast y hy
    cases rest with
    | nil =>
      have hpa : p a = false := hlast a rfl
      rw [show splitSingle p [a] = [[a]] from by simp [splitSingle, hpa]] at hy
      simp at hy
      subst hy
      simp
    | cons b rest' =>
      have hlast' : ∀ c, (b :: rest').getLast? = some c → p c = false := by
        intro c hc
        exact hlast c (by rw [List.getLast?_cons_cons]; exact hc)
      rcases hs : splitSingle p (b :: rest') with _ | ⟨z, zs⟩
      · exact absurd hs (splitSingle_ne_nil p _)
      cases hpa : p a
      · rw [splitSingle_cons_neg p a (b :: rest') hpa z zs hs] at hy
        cases zs with
        | nil =>
          simp at hy
          subst hy
          simp
        | cons z1 zs' =>
          rw [List.getLast?_cons_cons] at hy
          exact ih (by simp) hlast' y
            (by rw [hs, List.getLast?_cons_cons]; exact hy)
      · rw [splitSingle_cons_pos p a (b :: rest') hpa] at hy
        rw [hs, List.getLast?_cons_cons] at hy
        cases zs with
        | nil =>
          exact ih (by simp) hlast' y (by rw [hs]; exact hy)
        | cons z1 zs' =>
          exact ih (by simp) hlast' y
            (by rw [hs, List.getLast?_cons_cons]; exact hy)

theorem midFilter_empty_mem :
    ∀ (l : List Str) (x : Str), x ∈ midFilter l → x = [] →
      l.getLast? = some ([] : Str) := by
  intro l
  induction l with
  | nil => intro x hx; simp [midFilter] at hx
  | cons a l' ih =>
    intro x hx hxe
    cases l' with
    | nil =>
      have hxa : x = a := by simpa [midFilter] using hx
      rw [show ([a] : List Str).getLast? = some a from rfl, ← hxa, hxe]
    | cons b r =>
      by_cases ha : a.isEmpty
      · rw [show midFilter (a :: b :: r) = midFilter (b :: r)
          from by simp [midFilter, ha]] at hx
        rw [List.getLast?_cons_cons]
        exact ih x hx hxe
      · rw [show midFilter (a :: b :: r) = a :: midFilter (b :: r)
          from by simp [midFilter, ha]] at hx
        rcases List.mem_cons.mp hx with h | h
        · subst h
          rw [hxe] at ha
          exact absurd rfl ha
        · rw [List.getLast?_cons_cons]
          exact ih x h hxe

theorem splitWs_tokens_ne_nil (s : Str) (hne : s ≠ [])
    (hhead : ∀ c, s.head? = some c → isWs c = false)
    (hlast : ∀ c, s.getLast? = some c → isWs c = false) :
    ∀ x ∈ splitWs s, x ≠ [] := by
  intro x hx
  rcases s with _ | ⟨d, z⟩
  · exact absurd rfl hne
  have hd : isWs d = false := hhead d rfl
  rcases hz : splitSingle isWs z with _ | ⟨y, ys⟩
  · exact absurd hz (splitSingle_ne_nil isWs z)
  have hdz : splitSingle isWs (d :: z) = (d :: y) :: ys :=
    splitSingle_cons_neg isWs d z hd y ys hz
  rw [splitWs, hdz] at hx
  have hx2 : x ∈ (d :: y) :: midFilter ys := hx
  rcases List.mem_cons.mp hx2 with h | h
  · subst h; simp
  · intro hxe
    have hlast2 := midFilter_empty_mem ys x h hxe
    cases ys with
    | nil => simp [midFilter] at h
    | cons y1 ys' =>
      have hsl := splitSingle_getLast_ne_nil isWs (d :: z) (by simp) hlast
        ([] : Str) (by rw [hdz, List.getLast?_cons_cons]; exact hlast2)
      exact hsl rfl

theorem dropWhile_head_false (p : Char → Bool) :
    ∀ (l : Str) (c : Char), (l.dropWhile p).head? = some c → p c = false := by
  intro l
  induction l with
  | nil => intro c hc; simp [List.dropWhile] at hc
  | cons a l' ih =>
    intro c hc
    cases hpa : p a
    · rw [show (a :: l').dropWhile p = a :: l'
        from by simp [List.dropWhile, hpa]] at hc
      simp at hc
      subst hc
      exact hpa
    · rw [show (a :: l').dropWhile p = l'.dropWhile p
        from by simp [List.dropWhile, hpa]] at hc
      exact ih c hc

theorem dropWhile_getLast? (p : Char → Bool) :
    ∀ (l : Str) (c : Char), (l.dropWhile p).getLast? = some c →
      l.getLast? = some c := by
  intro l
  induction l with
  | nil => intro c hc; simp [List.dropWhile] at hc
  | cons a l' ih =>
    intro c hc
    cases hpa : p a
    · rw [show (a :: l').dropWhile p = a :: l'
        from by simp [List.dropWhile, hpa]] at hc
      exact hc
    · rw [show (a :: l').dropWhile p = l'.dropWhile p
        from by simp [List.dropWhile, hpa]] at hc
      have h2 := ih c hc
      cases l' with
      | nil => simp at h2
      | cons b r => rw [List.getLast?_cons_cons]; exact h2

theorem trim_head_not_ws (s : Str) (c : Char) (hc : (trim s).head? = some c) :
    isWs c = false := by
  rw [show trim s = ((s.dropWhile isWs).reverse.dropWhile isWs).reverse
      from rfl, List.head?_reverse] at hc
  have h2 := dropWhile_getLast? isWs _ c hc
  rw [List.getLast?_reverse] at h2
  exact dropWhile_head_false isWs s c h2

theorem trim_getLast_not_ws (s : Str) (c : Char)
    (hc : (trim s).getLast? = some c) : isWs c = false := by
  rw [show trim s = ((s.dropWhile isWs).reverse.dropWhile isWs).reverse
      from rfl, List.getLast?_reverse] at hc
  exact dropWhile_head_false isWs _ c hc

theorem splitWs_ne_nil (s : Str) : splitWs s ≠ [] := by
  rcases hs : splitSingle isWs s with _ | ⟨y, ys⟩
  · exact absurd hs (splitSingle_ne_nil isWs s)
  · rw [splitWs, hs]; simp

theorem fixSplitData_tokens_aux :
    ∀ (n : Nat) (l : List Str), l.length ≤ n →
    (∀ x ∈ l, x ≠ [] ∧ ∀ c ∈ x, isWs c = false) →
    ∀ y ∈ fixSplitData l,
      y ≠ [] ∧ (∀ c, y.head? = some c → isWs c = false) ∧
      (∀ c, y.getLast? = some c → isWs c = false) ∧
      (∀ c ∈ y, c = ' ' ∨ isWs c = false) := by
  intro n
  induction n with
  | zero =>
    intro l hlen hg y hy
    rcases l with _ | ⟨a, l'⟩
    · cases hy
    · simp at hlen
  | succ n ih =>
    intro l hlen hg y hy
    rcases l with _ | ⟨curr, tail⟩
    · cases hy
    rcases tail with _ | ⟨next, rest⟩
    · obtain ⟨hcne, hcws⟩ := hg curr (List.mem_cons_self _ _)
      rw [show fixSplitData [curr] = [curr] from rfl] at hy
      rcases List.mem_cons.mp hy with h | h
      · subst h
        refine ⟨hcne, ?_, ?_, fun c hc => Or.inr (hcws c hc)⟩
        · intro c hc
          exact hcws c (by
            rcases y with _ | ⟨y0, yr⟩
            · cases hc
            · simp at hc; subst hc; exact List.mem_cons_self _ _)
        · intro c hc
          exact hcws c (List.mem_of_mem_getLast? hc)
      · cases h
    obtain ⟨hcne, hcws⟩ := hg curr (List.mem_cons_self _ _)
    obtain ⟨hnne, hnws⟩ := hg next (by simp)
    by_cases hm : (curr == levelTok
        && (!next.isEmpty && next.all Char.isDigit)) = true
    · rw [show fixSplitData (curr :: next :: rest)
          = (curr ++ ' ' :: next) :: fixSplitData rest
        from by simp only [fixSplitData]; rw [if_pos hm]] at hy
      rcases List.mem_cons.mp hy with h | h
      · subst h
        refine ⟨by simp, ?_, ?_, ?_⟩
        · intro c hc
          rcases curr with _ | ⟨c0, cr⟩
          · exact absurd rfl hcne
          · simp at hc; subst hc
            exact hcws c0 (List.mem_cons_self _ _)
        · intro c hc
          rw [List.getLast?_append_of_ne_nil curr (List.cons_ne_nil ' ' next)] at hc
          rcases next with _ | ⟨n0, nr⟩
          · exact absurd rfl hnne
          · rw [List.getLast?_cons_cons] at hc
            exact hnws c (List.mem_of_mem_getLast? hc)
        · intro c hc
          rcases List.mem_append.mp hc with h1 | h1
          · exact Or.inr (hcws c h1)
          · rcases List.mem_cons.mp h1 with h2 | h2
            · exact Or.inl h2
            · exact Or.inr (hnws c h2)
      · exact ih rest (by simp at hlen ⊢; omega)
          (fun x hx => hg x (by simp [hx])) y h
    · rw [show fixSplitData (curr :: next :: rest)
          = curr :: fixSplitData (next :: rest)
        from by simp only [fixSplitData]; rw [if_neg hm]] at hy
      rcases List.mem_cons.mp hy with h | h
      · subst h
        refine ⟨hcne, ?_, ?_, fun c hc => Or.inr (hcws c hc)⟩
        · intro c hc
          rcases y with _ | ⟨y0, yr⟩
          · exact absurd rfl hcne
          · simp at hc; subst hc
            exact hcws y0 (List.mem_cons_self _ _)
        · intro c hc
          exact hcws c (List.mem_of_mem_getLast? hc)
      · exact ih (next :: rest) (by simp at hlen ⊢; omega)
          (fun x hx => hg x (List.mem_cons_of_mem _ hx)) y h

theorem fixSplitData_tokens (l : List Str)
    (hg : ∀ x ∈ l, x ≠ [] ∧ ∀ c ∈ x, isWs c = false) :
    ∀ y ∈ fixSplitData l,
      y ≠ [] ∧ (∀ c, y.head? = some c → isWs c = false) ∧
      (∀ c, y.getLast? = some c → isWs c = false) ∧
      (∀ c ∈ y, c = ' ' ∨ isWs c = false) :=
  fixSplitData_tokens_aux l.length l (Nat.le_refl _) hg

theorem joinSpace_ne_nil (ts : List Str) (hne : ts ≠ [])
    (hh : ∀ y ∈ ts, y ≠ []) : joinSpace ts ≠ [] := by
  rcases ts with _ | ⟨t, ts'⟩
  · exact absurd rfl hne
  rcases ts' with _ | ⟨u, r⟩
  · exact hh t (List.mem_cons_self _ _)
  · simp [joinSpace]

theorem joinSpace_getLast :
    ∀ (ts : List Str), ts ≠ [] → (∀ y ∈ ts, y ≠ []) →
    ∀ c, (joinSpace ts).getLast? = some c →
      ∃ y ∈ ts, y.getLast? = some c := by
  intro ts
  induction ts with
  | nil => intro h; exact absurd rfl h
  | cons t ts' ih =>
    intro _ hall c hc
    cases ts' with
    | nil => exact ⟨t, List.mem_cons_self _ _, hc⟩
    | cons u r =>
      rw [show joinSpace (t :: u :: r) = t ++ ' ' :: joinSpace (u :: r)
        from rfl] at hc
      rw [List.getLast?_append_of_ne_nil t
        (List.cons_ne_nil ' ' (joinSpace (u :: r)))] at hc
      have hjne : joinSpace (u :: r) ≠ [] :=
        joinSpace_ne_nil (u :: r) (by simp)
          (fun y hy => hall y (List.mem_cons_of_mem _ hy))
      rcases hj : joinSpace (u :: r) with _ | ⟨j0, jr⟩
      · exact absurd hj hjne
      rw [hj, List.getLast?_cons_cons] at hc
      obtain ⟨y, hy, hyc⟩ := ih (by simp)
        (fun y hy => hall y (List.mem_cons_of_mem _ hy)) c (by rw [hj]; exact hc)
      exact ⟨y, List.mem_cons_of_mem _ hy, hyc⟩

theorem joinSpace_head?_eq (t : Str) (ht : t ≠ []) (ts : List Str) :
    (joinSpace (t :: ts)).head? = t.head? := by
  rcases t with _ | ⟨c, t'⟩
  · exact absurd rfl ht
  obtain ⟨w, hw⟩ := joinSpace_cons_head c t' ts
  rw [hw]
  rfl

theorem joinSpace_chars :
    ∀ (ts : List Str) (c : Char), c ∈ joinSpace ts →
      c = ' ' ∨ ∃ y ∈ ts, c ∈ y := by
  intro ts
  induction ts with
  | nil => intro c hc; cases hc
  | cons t ts' ih =>
    intro c hc
    cases ts' with
    | nil => exact Or.inr ⟨t, List.mem_cons_self _ _, hc⟩
    | cons u r =>
      rw [show joinSpace (t :: u :: r) = t ++ ' ' :: joinSpace (u :: r)
        from rfl] at hc
      rcases List.mem_append.mp hc with h | h
      · exact Or.inr ⟨t, List.mem_cons_self _ _, h⟩
      · rcases List.mem_cons.mp h with h1 | h1
        · exact Or.inl h1
        · rcases ih c h1 with h2 | ⟨y, hy, hyc⟩
          · exact Or.inl h2
          · exact Or.inr ⟨y, List.mem_cons_of_mem _ hy, hyc⟩

theorem hasTab_joinSpace_false (ts : List Str)
    (h : ∀ y ∈ ts, ∀ c ∈ y, c = ' ' ∨ isWs c = false) :
    hasTab (joinSpace ts) = false := by
  rw [hasTab, List.any_eq_false]
  intro c hc
  rcases joinSpace_chars ts c hc with h1 | ⟨y, hy, hcy⟩
  · subst h1; decide
  · rcases h y hy c hcy with h2 | h2
    · subst h2; decide
    · have hne : c ≠ '\t' := by
        intro he
        subst he
        exact absurd h2 (by decide)
      simp [hne]

theorem joinSpace_replicate_nil :
    ∀ k : Nat, joinSpace (List.replicate (k + 1) ([] : Str))
      = List.replicate k ' ' := by
  intro k
  induction k with
  | zero => rfl
  | succ k ih =>
    rw [show List.replicate (k + 1 + 1) ([] : Str)
        = [] :: List.replicate (k + 1) [] from rfl]
    rw [joinSpace_cons_of_ne_nil [] _ (by simp)]
    rw [ih]
    simp [List.replicate_succ]

theorem joinSpace_append_replicate :
    ∀ (xs : List Str) (k : Nat), xs ≠ [] →
      joinSpace (xs ++ List.replicate k ([] : Str))
        = joinSpace xs ++ List.replicate k ' ' := by
  intro xs
  induction xs with
  | nil => intro k h; exact absurd rfl h
  | cons t ts ih =>
    intro k _
    cases ts with
    | nil =>
      cases k with
      | zero => simp
      | succ k' =>
        rw [show ([t] : List Str) ++ List.replicate (k' + 1) []
            = t :: List.replicate (k' + 1) [] from rfl]
        rw [joinSpace_cons_of_ne_nil t _ (by simp)]
        rw [joinSpace_replicate_nil k']
        rw [show joinSpace [t] = t from rfl]
        rw [show (' ' :: List.replicate k' ' ') = List.replicate (k' + 1) ' '
          from rfl]
    | cons u r =>
      rw [show ((t :: u :: r) ++ List.replicate k ([] : Str))
          = t :: ((u :: r) ++ List.replicate k []) from rfl]
      rw [joinSpace_cons_of_ne_nil t _ (by simp)]
      rw [ih k (by simp)]
      rw [joinSpace_cons_of_ne_nil t (u :: r) (by simp)]
      simp

theorem dropWhile_append_all (p : Char → Bool) :
    ∀ (a b : Str), (∀ c ∈ a, p c = true) →
      (a ++ b).dropWhile p = b.dropWhile p := by
  intro a
  induction a with
  | nil => intro b _; rfl
  | cons c a' ih =>
    intro b h
    have hc : p c = true := h c (List.mem_cons_self _ _)
    rw [show ((c :: a') ++ b) = c :: (a' ++ b) from rfl]
    rw [show (c :: (a' ++ b)).dropWhile p = (a' ++ b).dropWhile p
      from by simp [List.dropWhile, hc]]
    exact ih b (fun c' hc' => h c' (List.mem_cons_of_mem _ hc'))

theorem trim_append_replicate (u : Str) (k : Nat) (hne : u ≠ [])
    (hh : ∀ c, u.head? = some c → isWs c = false)
    (hl : ∀ c, u.getLast? = some c → isWs c = false) :
    trim (u ++ List.replicate k ' ') = u := by
  rcases u with _ | ⟨d, w⟩
  · exact absurd rfl hne
  have hd : isWs d = false := hh d rfl
  have h1 : ((d :: w) ++ List.replicate k ' ').dropWhile isWs
      = (d :: w) ++ List.replicate k ' ' := by
    rw [show ((d :: w) ++ List.replicate k ' ')
        = d :: (w ++ List.replicate k ' ') from rfl]
    simp [List.dropWhile, hd]
  rw [show trim ((d :: w) ++ List.replicate k ' ')
      = ((((d :: w) ++ List.replicate k ' ').dropWhile isWs).reverse.dropWhile
          isWs).reverse from rfl]
  rw [h1, List.reverse_append, List.reverse_replicate]
  rw [dropWhile_append_all isWs (List.replicate k ' ') (d :: w).reverse
    (fun c hc => by
      have := List.eq_of_mem_replicate hc
      subst this
      decide)]
  rcases hrev : (d :: w).reverse with _ | ⟨e, v⟩
  · exact absurd hrev (by simp)
  have he : isWs e = false := by
    refine hl e ?_
    rw [← List.head?_reverse, hrev]
    rfl
  rw [show (e :: v).dropWhile isWs = e :: v from by simp [List.dropWhile, he]]
  rw [← hrev, List.reverse_reverse]

theorem mapCols_nil_of_ge (parts : List Str) (b : Bool) :
    ∀ (cols : List Str) (idx : Nat), parts.length ≤ idx →
      mapCols cols parts b idx = [] := by
  intro cols
  induction cols with
  | nil => intro idx _; rfl
  | cons c cs ih =>
    intro idx h
    cases cs with
    | nil => simp [mapCols, Nat.not_lt.mpr h]
    | cons c2 cs2 => simp [mapCols, Nat.not_lt.mpr h, ih (idx + 1) (by omega)]

theorem map_lookupD_eq_simCols (parts : List Str) (b : Bool) :
    ∀ (cols : List Str) (idx : Nat), cols.Nodup →
      cols.map (fun k => lookupD (mapCols cols parts b idx) k)
        = simCols cols.length parts b idx := by
  intro cols
  induction cols with
  | nil => intro idx _; rfl
  | cons c cs ih =>
    intro idx hnd
    cases cs with
    | nil =>
      by_cases hidx : idx < parts.length <;>
        simp [mapCols, simCols, lookupD, List.lookup, hidx]
    | cons c2 cs2 =>
      have hc : c ∉ c2 :: cs2 := (List.nodup_cons.mp hnd).1
      have hnd2 : (c2 :: cs2).Nodup := (List.nodup_cons.mp hnd).2
      have hhead : lookupD (mapCols (c :: c2 :: cs2) parts b idx) c
          = (if idx < parts.length then parts.getD idx [] else []) := by
        by_cases hidx : idx < parts.length
        · simp [mapCols, hidx, lookupD, List.lookup]
        · simp [mapCols, hidx, lookupD,
            lookup_mapCols_not_mem parts b c (c2 :: cs2) (idx + 1) hc]
      have htail : ∀ k ∈ c2 :: cs2,
          lookupD (mapCols (c :: c2 :: cs2) parts b idx) k
            = lookupD (mapCols (c2 :: cs2) parts b (idx + 1)) k := by
        intro k hk
        have hkc : (k == c) = false :=
          beq_eq_false_iff_ne.mpr (fun he => hc (he ▸ hk))
        by_cases hidx : idx < parts.length
        · simp [mapCols, hidx, lookupD, List.lookup, hkc]
        · simp [mapCols, hidx]
      rw [show (c :: c2 :: cs2).map
            (fun k => lookupD (mapCols (c :: c2 :: cs2) parts b idx) k)
          = lookupD (mapCols (c :: c2 :: cs2) parts b idx) c
            :: (c2 :: cs2).map
                (fun k => lookupD (mapCols (c :: c2 :: cs2) parts b idx) k)
        from rfl]
      rw [hhead, List.map_eq_map_iff.mpr htail, ih (idx + 1) hnd2]
      rfl

theorem simCols_ne_nil (parts : List Str) (b : Bool) (m idx : Nat)
    (hm : 1 ≤ m) : simCols m parts b idx ≠ [] := by
  match m with
  | 1 => simp [simCols]
  | (k + 2) => simp [simCols]

theorem simCols_ge (parts : List Str) :
    ∀ (m idx : Nat), 1 ≤ m → idx + m ≤ parts.length →
      joinSpace (simCols m parts false idx) = joinSpace (parts.drop idx) := by
  intro m
  induction m with
  | zero => intro idx h; omega
  | succ m' ih =>
    intro idx _ hle
    cases m' with
    | zero =>
      have hidx : idx < parts.length := by omega
      simp [simCols, hidx, joinSpace]
    | succ m'' =>
      have hidx : idx < parts.length := by omega
      rw [show simCols (m'' + 1 + 1) parts false idx
          = (if idx < parts.length then parts.getD idx [] else [])
            :: simCols (m'' + 1) parts false (idx + 1) from rfl]
      rw [if_pos hidx]
      rw [joinSpace_cons_of_ne_nil _ _
        (simCols_ne_nil parts false (m'' + 1) (idx + 1) (by omega))]
      rw [ih (idx + 1) (by omega) (by omega)]
      rw [List.drop_eq_getElem_cons hidx]
      have hdne : parts.drop (idx + 1) ≠ [] := by
        intro hnil
        have := congrArg List.length hnil
        simp [List.length_drop] at this
        omega
      rw [joinSpace_cons_of_ne_nil _ _ hdne]
      rw [List.getD_eq_getElem parts [] hidx]

theorem simCols_all_out (parts : List Str) (b : Bool) :
    ∀ (m idx : Nat), parts.length ≤ idx →
      simCols m parts b idx = List.replicate m [] := by
  intro m
  induction m with
  | zero => intro idx _; rfl
  | succ m' ih =>
    intro idx h
    cases m' with
    | zero => simp [simCols, Nat.not_lt.mpr h, List.replicate]
    | succ m'' =>
      rw [show simCols (m'' + 1 + 1) parts b idx
          = (if idx < parts.length then parts.getD idx [] else [])
            :: simCols (m'' + 1) parts b (idx + 1) from rfl]
      rw [if_neg (Nat.not_lt.mpr h), ih (idx + 1) (by omega)]
      rfl

theorem simCols_lt (parts : List Str) :
    ∀ (m idx : Nat), idx ≤ parts.length → parts.length < idx + m →
      simCols m parts false idx
        = parts.drop idx ++ List.replicate (idx + m - parts.length) [] := by
  intro m
  induction m with
  | zero => intro idx h1 h2; omega
  | succ m' ih =>
    intro idx h1 h2
    cases m' with
    | zero =>
      have hidx : idx = parts.length := by omega
      subst hidx
      rw [show simCols 1 parts false parts.length
          = [if parts.length < parts.length then
               (if false then parts.getD parts.length []
                else joinSpace (parts.drop parts.length))
             else []] from rfl]
      rw [if_neg (Nat.lt_irrefl _), List.drop_length]
      rw [show parts.length + (0 + 1) - parts.length = 1 from by omega]
      rfl
    | succ m'' =>
      by_cases hidx : idx < parts.length
      · rw [show simCols (m'' + 1 + 1) parts false idx
            = (if idx < parts.length then parts.getD idx [] else [])
              :: simCols (m'' + 1) parts false (idx + 1) from rfl]
        rw [if_pos hidx, ih (idx + 1) (by omega) (by omega)]
        rw [List.drop_eq_getElem_cons hidx, List.getD_eq_getElem parts [] hidx]
        rw [show idx + 1 + (m'' + 1) - parts.length
            = idx + (m'' + 1 + 1) - parts.length from by omega]
        rfl
      · have hidx2 : idx = parts.length := by omega
        subst hidx2
        rw [simCols_all_out parts false (m'' + 1 + 1) parts.length
          (Nat.le_refl _)]
        rw [List.drop_length]
        rw [show parts.length + (m'' + 1 + 1) - parts.length = m'' + 1 + 1
          from by omega]
        rfl

/-- Claim C5: for a record parsed on the whitespace path, re-parsing the
reconstructed transport raw string — the ordered Schema values with empty
strings for missing fields, joined with single spaces — reproduces the
stored parsed mapping exactly, token overflow into the comments field
included; and when the token count exceeds the Schema arity the comments
field is the space-join of all remaining tokens.  (The "token-count
permitting" proviso of the claim is the whitespace-path hypothesis: a
tab-delimited record may hold fields that themselves contain spaces,
which cannot survive a whitespace re-split.) -/
theorem C5_round_trip (raw : Str) (htab : hasTab (trim raw) = false) :
    parseFrcData (simulatedRaw (parseFrcData raw)) = parseFrcData raw ∧
    (17 < (frcParts raw).length →
      List.lookup (FRC_COLUMNS.getD 17 []) (parseFrcData raw)
        = some (joinSpace ((frcParts raw).drop 17))) := by
  have hnd : FRC_COLUMNS.Nodup := by decide
  have hlen18 : FRC_COLUMNS.length = 18 := by decide
  constructor
  · by_cases htr : trim raw = []
    · have hparts0 : frcParts raw = [[]] := by
        simp only [frcParts]
        rw [htr]
        decide
      have hp : parseFrcData raw = mapCols FRC_COLUMNS [[]] false 0 := by
        simp only [parseFrcData]
        rw [hparts0, htr]
        rfl
      rw [hp]
      decide
    · have hg : ∀ x ∈ splitWs (trim raw),
          x ≠ [] ∧ ∀ c ∈ x, isWs c = false := by
        intro x hx
        exact ⟨splitWs_tokens_ne_nil (trim raw) htr (trim_head_not_ws raw)
          (trim_getLast_not_ws raw) x hx, splitWs_chars (trim raw) x hx⟩
      have hws0ne : splitWs (trim raw) ≠ [] := splitWs_ne_nil (trim raw)
      have hpne : fixSplitData (splitWs (trim raw)) ≠ [] :=
        fixSplitData_ne_nil _ hws0ne
      have hptoks := fixSplitData_tokens (splitWs (trim raw)) hg
      have hparts : frcParts raw = fixSplitData (splitWs (trim raw)) := by
        simp [frcParts, htab]
      have hparse : parseFrcData raw
          = mapCols FRC_COLUMNS (fixSplitData (splitWs (trim raw))) false 0 := by
        simp only [parseFrcData]
        rw [hparts, htab]
      have hjp_ne : joinSpace (fixSplitData (splitWs (trim raw))) ≠ [] :=
        joinSpace_ne_nil _ hpne (fun y hy => (hptoks y hy).1)
      have hjp_head : ∀ c,
          (joinSpace (fixSplitData (splitWs (trim raw)))).head? = some c →
          isWs c = false := by
        intro c hc
        rcases hp : fixSplitData (splitWs (trim raw)) with _ | ⟨p0, pr⟩
        · exact absurd hp hpne
        · have hp0 := hptoks p0 (by rw [hp]; exact List.mem_cons_self _ _)
          rw [hp, joinSpace_head?_eq p0 hp0.1 pr] at hc
          exact hp0.2.1 c hc
      have hjp_last : ∀ c,
          (joinSpace (fixSplitData (splitWs (trim raw)))).getLast? = some c →
          isWs c = false := by
        intro c hc
        obtain ⟨y, hy, hyc⟩ := joinSpace_getLast _ hpne
          (fun y hy => (hptoks y hy).1) c hc
        exact (hptoks y hy).2.2.1 c hyc
      have hjp_tab :
          hasTab (joinSpace (fixSplitData (splitWs (trim raw)))) = false :=
        hasTab_joinSpace_false _ (fun y hy => (hptoks y hy).2.2.2)
      have hsplit_back :
          splitWs (joinSpace (fixSplitData (splitWs (trim raw))))
            = splitWs (trim raw) :=
        splitWs_joinSpace_fixSplitData _ hws0ne hg
      have hmap : simulatedCols (parseFrcData raw)
          = simCols 18 (fixSplitData (splitWs (trim raw))) false 0 := by
        rw [show simulatedCols (parseFrcData raw)
            = FRC_COLUMNS.map (fun k => lookupD (parseFrcData raw) k)
          from rfl]
        rw [hparse]
        rw [map_lookupD_eq_simCols (fixSplitData (splitWs (trim raw))) false
          FRC_COLUMNS 0 hnd]
        rw [hlen18]
      have hparse2 : ∀ s : Str,
          trim s = joinSpace (fixSplitData (splitWs (trim raw))) →
          parseFrcData s = parseFrcData raw := by
        intro s hts
        rw [show parseFrcData s
            = mapCols FRC_COLUMNS (frcParts s) (hasTab (trim s)) 0 from rfl]
        rw [show frcParts s
            = if hasTab (trim s) then splitTab (trim s)
              else fixSplitData (splitWs (trim s)) from rfl]
        rw [hts, hjp_tab]
        rw [if_neg (by simp)]
        rw [hsplit_back]
        rw [hparse]
      by_cases hn : 18 ≤ (fixSplitData (splitWs (trim raw))).length
      · have hsim : simulatedRaw (parseFrcData raw)
            = joinSpace (fixSplitData (splitWs (trim raw))) := by
          rw [show simulatedRaw (parseFrcData raw)
              = joinSpace (simulatedCols (parseFrcData raw)) from rfl]
          rw [hmap]
          rw [simCols_ge _ 18 0 (by omega) (by omega)]
          rw [List.drop_zero]
        rw [hsim]
        refine hparse2 _ ?_
        have h0 := trim_append_replicate
          (joinSpace (fixSplitData (splitWs (trim raw)))) 0 hjp_ne hjp_head
          hjp_last
        simpa using h0
      · have hlp : 1 ≤ (fixSplitData (splitWs (trim raw))).length :=
          List.length_pos.mpr hpne
        have hsim : simulatedRaw (parseFrcData raw)
            = joinSpace (fixSplitData (splitWs (trim raw)))
              ++ List.replicate
                  (18 - (fixSplitData (splitWs (trim raw))).length) ' ' := by
          rw [show simulatedRaw (parseFrcData raw)
              = joinSpace (simulatedCols (parseFrcData raw)) from rfl]
          rw [hmap]
          rw [simCols_lt _ 18 0 (by omega) (by omega)]
          rw [List.drop_zero]
          rw [show 0 + 18 - (fixSplitData (splitWs (trim raw))).length
              = 18 - (fixSplitData (splitWs (trim raw))).length from by omega]
          exact joinSpace_append_replicate _ _ hpne
        rw [hsim]
        exact hparse2 _
          (trim_append_replicate _ _ hjp_ne hjp_head hjp_last)
  · intro h17
    rw [frc_getD_eq 17 (by omega)]
    rw [show parseFrcData raw
        = mapCols FRC_COLUMNS (frcParts raw) (hasTab (trim raw)) 0 from rfl]
    rw [lookup_mapCols (frcParts raw) (hasTab (trim raw)) FRC_COLUMNS 0 17
      (by omega) hnd]
    rw [if_pos (by omega : 0 + 17 < (frcParts raw).length)]
    rw [if_pos ⟨by rw [hlen18], htab⟩]

/-- Claim C5 witness: a 19-token whitespace payload with a split level
marker — the comments field absorbs the overflow and the reconstructed
transport string re-parses to the same mapping. -/
theorem C5_round_trip_witness :
    hasTab (trim ("Alice CMP Level 2 R1 254 t 5 2 8 3 4 5 3 118 n n great run".toList)) = false ∧
    parseFrcData (simulatedRaw (parseFrcData
        "Alice CMP Level 2 R1 254 t 5 2 8 3 4 5 3 118 n n great run".toList))
      = parseFrcData
        "Alice CMP Level 2 R1 254 t 5 2 8 3 4 5 3 118 n n great run".toList := by
  constructor
  · decide
  · exact (C5_round_trip
      "Alice CMP Level 2 R1 254 t 5 2 8 3 4 5 3 118 n n great run".toList
      (by decide)).1
